import Mathlib

/-!
Shallow embedding of `contfrac/continued_fractions.py` (pyContFrac).

Modelling conventions:
* A Python coefficient generator is modelled as the finite `List ℤ` it
  produces; a stream factory is restartable, so the list fully describes it.
  All inputs in scope of the claims are exact rationals, whose streams are
  finite.
* Python exceptions are modelled with `Except Err`: `OverflowError` is
  `Err.overflow`, `ZeroDivisionError` (from `fractions.Fraction(p, 0)`) is
  `Err.zeroDiv`, and the generic `Exception("e, f, g, h must be positive")`
  is `Err.valueErr`.
* `fractions.Fraction` is ℚ; `Fraction(a, c)` is `Rat.divInt a c`, and the
  Fraction arithmetic used by the code is written with explicit
  numerator/denominator formulas (`qsub`, `qabs`) exactly as the `fractions`
  module computes them, so that everything evaluates by kernel reduction.
  Bridge lemmas identify them with Mathlib's field operations.
* `math.trunc(a/c)` on two Python ints is modelled as exact truncated
  division `Int.tdiv a c`, and the float comparison on line 119 of the
  source as the corresponding exact rational comparison (floats are an
  approximation of these exact values; all claims are about exact rational
  behavior).
* Generator laziness: `as_rational` consumes `_convergents` lazily, so a
  would-be `ZeroDivisionError` past its stopping point is never raised.  We
  model this by fusing the convergent recurrence into the consuming walk
  (`ratWalk`), which stops exactly where the Python loop stops.
-/

namespace Contfrac

/-- Python exception outcomes used by the library. -/
inductive Err where
  | overflow   -- OverflowError: the "unbounded value" signal
  | zeroDiv    -- ZeroDivisionError from Fraction(p, 0)
  | valueErr   -- Exception("e, f, g, h must be positive")
deriving DecidableEq, Repr

/-- Exact value of the Python float literal `1e-14` used in `as_rational`
(`(1e-14).as_integer_ratio()`); Python compares a `Fraction` with a float
exactly, so this dyadic rational is the exact threshold. -/
def eps : ℚ := Rat.divInt 6338253001141147 633825300114114700748351602688

/-- Fraction subtraction as computed by `fractions.Fraction.__sub__`:
numerator/denominator arithmetic followed by normalization. -/
def qsub (x y : ℚ) : ℚ := Rat.divInt (x.num * y.den - y.num * x.den) (x.den * y.den)

/-- Fraction absolute value as computed by `fractions.Fraction.__abs__`. -/
def qabs (x : ℚ) : ℚ := if x.num < 0 then Rat.divInt (-x.num) x.den else x

/-- Euclid coefficient generator `_euclid` on a numerator/denominator pair
(source lines 20-33): emit `n // d`, continue with `(d, n % d)` until the
remainder is zero.  `Fraction` guarantees `0 < d`; the `d ≤ 0` branch is
unreachable in all uses (Python would raise `ZeroDivisionError` on `d = 0`). -/
def euclidAux (n d : ℤ) : List ℤ :=
  if _hd : d ≤ 0 then []
  else
    if _hr : n.emod d = 0 then [n.fdiv d]
    else n.fdiv d :: euclidAux d (n.emod d)
termination_by d.natAbs
decreasing_by
  have h0 : 0 < d := by omega
  have h1 : 0 ≤ n.emod d := Int.emod_nonneg n (by omega)
  have h2 : n.emod d < d := Int.emod_lt_of_pos n h0
  omega

/-- The coefficient stream `_euclid(x)` of an exact rational. -/
def euclid (x : ℚ) : List ℤ := euclidAux x.num x.den

/-- Continuant pair of a coefficient list: first column of the product of
the matrices `[[a,1],[1,0]]`.  For a list `[a0, ..., ak]` this is the final
convergent pair `(p_k, q_k)` of `_convergents` (lines 36-51), and `(1, 0)`
(the value ∞) for the empty list. -/
def cfVec : List ℤ → ℤ × ℤ
  | [] => (1, 0)
  | a :: L => (a * (cfVec L).1 + (cfVec L).2, (cfVec L).1)

/-- Numerator continuant. -/
def cfNum (L : List ℤ) : ℤ := (cfVec L).1

/-- Denominator continuant. -/
def cfDen (L : List ℤ) : ℤ := (cfVec L).2

/-- The exact value of a finite coefficient list: its last convergent. -/
def convLast (L : List ℤ) : ℚ := Rat.divInt (cfNum L) (cfDen L)

/-- The `as_rational` walk (lines 267-282) fused with the `_convergents`
recurrence (lines 36-51): state is the previous best convergent and the two
trailing continuant pairs `(p_{k-1}, q_{k-1}), (p_{k-2}, q_{k-2})`; each step
forms `Fraction(p_k, q_k)` (raising `ZeroDivisionError` on `q_k = 0`), stops
returning the previous convergent once two consecutive convergents differ by
less than `eps`, and raises `OverflowError` if the stream was empty. -/
def ratWalk (best : Option ℚ) (pk qk pk2 qk2 : ℤ) : List ℤ → Except Err ℚ
  | [] =>
    match best with
    | none => .error .overflow
    | some b => .ok b
  | a :: rest =>
    if a * qk + qk2 = 0 then .error .zeroDiv
    else
      match best with
      | some b =>
        if qabs (qsub (Rat.divInt (a * pk + pk2) (a * qk + qk2)) b) < eps then .ok b
        else ratWalk (some (Rat.divInt (a * pk + pk2) (a * qk + qk2))) (a * pk + pk2) (a * qk + qk2) pk qk rest
      | none => ratWalk (some (Rat.divInt (a * pk + pk2) (a * qk + qk2))) (a * pk + pk2) (a * qk + qk2) pk qk rest

/-- `ContFrac.as_rational` on the coefficient stream `L`. -/
def asRational (L : List ℤ) : Except Err ℚ := ratWalk none 1 0 0 1 L

/-- Specification device (not from the source): `true` iff the `as_rational`
walk over `L` runs to the end of the stream — no `Fraction(p, 0)` error and
no pair of consecutive convergents closer than `eps`. -/
def noStopWalk (best : Option ℚ) (pk qk pk2 qk2 : ℤ) : List ℤ → Bool
  | [] => true
  | a :: rest =>
    if a * qk + qk2 = 0 then false
    else
      match best with
      | some b =>
        if qabs (qsub (Rat.divInt (a * pk + pk2) (a * qk + qk2)) b) < eps then false
        else noStopWalk (some (Rat.divInt (a * pk + pk2) (a * qk + qk2))) (a * pk + pk2) (a * qk + qk2) pk qk rest
      | none => noStopWalk (some (Rat.divInt (a * pk + pk2) (a * qk + qk2))) (a * pk + pk2) (a * qk + qk2) pk qk rest

/-- `noStopWalk` from the initial state of `as_rational`. -/
def noStop (L : List ℤ) : Bool := noStopWalk none 1 0 0 1 L

/-- `ContFrac.as_integer_ratio` (line 327): numerator/denominator of
`as_rational()`. -/
def intRatioCF (L : List ℤ) : Except Err (ℤ × ℤ) :=
  (asRational L).map fun v => (v.num, (v.den : ℤ))

/-- `ContFrac.split` (lines 285-294): first coefficient and the remainder
stream (`_residue` skips the first term of a fresh stream); `OverflowError`
on an empty stream. -/
def splitCF (L : List ℤ) : Except Err (ℤ × List ℤ) :=
  match L with
  | [] => .error .overflow
  | a :: r => .ok (a, r)

/-- `ContFrac.__int__` (lines 299-320): first coefficient if nonnegative;
for a negative first coefficient, one more if the stream continues, else the
coefficient itself; `OverflowError` on an empty stream. -/
def intCF (L : List ℤ) : Except Err ℤ :=
  match L with
  | [] => .error .overflow
  | a :: rest =>
    if 0 ≤ a then .ok a
    else
      match rest with
      | [] => .ok a
      | _ :: _ => .ok (a + 1)

/-- Truncation toward zero of a rational (`math.trunc`). -/
def ratTrunc (q : ℚ) : ℤ := q.num.tdiv q.den

/-- The ingest/egest loop of `_homographic_transform` (lines 59-82).  Egest
when `c != 0 and d != 0 and c*d > 0 and trunc(a/c) == trunc(b/d) != 0`:
yield `q = trunc(a/c)` and update `(a,b,c,d) ← (c, d, a-q*c, b-q*d)`.
Otherwise ingest the next input term `p`: `(a,b,c,d) ← (p*a+b, a, p*c+d, c)`;
on exhaustion, expand the residual `Fraction(a, c)` with Euclid when
`c != 0`, else end. -/
def homogRun (x : List ℤ) (a b c d : ℤ) : List ℤ :=
  if hg : c ≠ 0 ∧ d ≠ 0 ∧ 0 < c * d ∧ a.tdiv c = b.tdiv d ∧ b.tdiv d ≠ 0 then
    a.tdiv c :: homogRun x c d (a - a.tdiv c * c) (b - a.tdiv c * d)
  else
    match x with
    | p :: xs => homogRun xs (p * a + b) a (p * c + d) c
    | [] => if c ≠ 0 then euclid (Rat.divInt a c) else []
termination_by (x.length, c.natAbs + d.natAbs)
decreasing_by
  · apply Prod.Lex.right
    obtain ⟨hc, hd, -, heq, hne⟩ := hg
    have key : ∀ u v : ℤ, v ≠ 0 → (u - u.tdiv v * v).natAbs < v.natAbs := by
      intro u v hv
      have hmod : u - u.tdiv v * v = u.tmod v := by rw [Int.tmod_def]; ring
      have hneg : ∀ w z : ℤ, (-w).tmod z = -(w.tmod z) := by
        intro w z; rw [Int.tmod_def, Int.tmod_def, Int.neg_tdiv]; ring
      rw [hmod]
      rcases lt_trichotomy v 0 with h | h | h
      · have hv2 : u.tmod v = u.tmod (-v) := by rw [← Int.tmod_neg u (-v)]; ring_nf
        rcases le_or_lt 0 u with hu | hu
        · have b1 := Int.tmod_nonneg (a := u) (-v) hu
          have b2 := Int.tmod_lt_of_pos u (b := -v) (by omega)
          omega
        · have b1 := Int.tmod_nonneg (a := -u) (-v) (by omega)
          have b2 := Int.tmod_lt_of_pos (-u) (b := -v) (by omega)
          have b3 := hneg u (-v)
          omega
      · omega
      · rcases le_or_lt 0 u with hu | hu
        · have b1 := Int.tmod_nonneg (a := u) v hu
          have b2 := Int.tmod_lt_of_pos u h
          omega
        · have b1 := Int.tmod_nonneg (a := -u) v (by omega)
          have b2 := Int.tmod_lt_of_pos (-u) h
          have b3 := hneg u v
          omega
    have k1 := key a c hc
    have k2 := key b d hd
    rw [heq] at k1 ⊢
    omega
  · apply Prod.Lex.left
    simp

/-- `ContFrac.homographic` / `_homographic_transform` entry (lines 54-57,
239-247): immediately empty when `c = d = 0` (the value ∞), else the
ingest/egest loop. -/
def homographic (x : List ℤ) (a b c d : ℤ) : List ℤ :=
  if c = 0 ∧ d = 0 then [] else homogRun x a b c d

/-- The ingest/egest loop of `_bihomographic_transform` (lines 96-137) with
the two exhaustion flags `stop_x`, `stop_y`.  Egest when all of `e,f,g,h` are
nonzero and `trunc(a/e) == trunc(b/f) == trunc(c/g) == trunc(d/h) != 0`;
otherwise advance `x` when
`(not stop_x and not stop_y and f != 0 and g != 0 and h != 0 and
abs(b/f - d/h) > abs(c/g - d/h)) or stop_y` (the float divisions modelled
exactly), else advance `y`; an exhausted side sets its flag; when both flags
are set, expand the residual `Fraction(a, e)` with Euclid when `e != 0`. -/
def bihomRun (x y : List ℤ) (sx sy : Bool) (a b c d e f g h : ℤ) : List ℤ :=
  if hstop : sx = true ∧ sy = true then
    if e ≠ 0 then euclid (Rat.divInt a e) else []
  else
    if hg : e ≠ 0 ∧ f ≠ 0 ∧ g ≠ 0 ∧ h ≠ 0 ∧
        a.tdiv e = b.tdiv f ∧ b.tdiv f = c.tdiv g ∧ c.tdiv g = d.tdiv h ∧ d.tdiv h ≠ 0 then
      a.tdiv e :: bihomRun x y sx sy e f g h
        (a - a.tdiv e * e) (b - a.tdiv e * f) (c - a.tdiv e * g) (d - a.tdiv e * h)
    else
      if hch : ((sx = false ∧ sy = false ∧ f ≠ 0 ∧ g ≠ 0 ∧ h ≠ 0 ∧
          qabs (qsub (Rat.divInt b f) (Rat.divInt d h)) >
            qabs (qsub (Rat.divInt c g) (Rat.divInt d h))) ∨ sy = true) then
        match x with
        | p :: xs => bihomRun xs y sx sy (a*p+c) (b*p+d) a b (e*p+g) (f*p+h) e f
        | [] => bihomRun [] y true sy a b c d e f g h
      else
        match y with
        | q :: ys => bihomRun x ys sx sy (a*q+b) a (c*q+d) c (e*q+f) e (g*q+h) g
        | [] => bihomRun x [] sx true a b c d e f g h
termination_by
  ((x.length + (if sx then 0 else 1)) + (y.length + (if sy then 0 else 1)),
    e.natAbs + f.natAbs + g.natAbs + h.natAbs)
decreasing_by
  · apply Prod.Lex.right
    obtain ⟨he, hf, hgn, hh, h1, h2, h3, h4⟩ := hg
    have key : ∀ u v : ℤ, v ≠ 0 → (u - u.tdiv v * v).natAbs < v.natAbs := by
      intro u v hv
      have hmod : u - u.tdiv v * v = u.tmod v := by rw [Int.tmod_def]; ring
      have hneg : ∀ w z : ℤ, (-w).tmod z = -(w.tmod z) := by
        intro w z; rw [Int.tmod_def, Int.tmod_def, Int.neg_tdiv]; ring
      rw [hmod]
      rcases lt_trichotomy v 0 with h | h | h
      · have hv2 : u.tmod v = u.tmod (-v) := by rw [← Int.tmod_neg u (-v)]; ring_nf
        rcases le_or_lt 0 u with hu | hu
        · have b1 := Int.tmod_nonneg (a := u) (-v) hu
          have b2 := Int.tmod_lt_of_pos u (b := -v) (by omega)
          omega
        · have b1 := Int.tmod_nonneg (a := -u) (-v) (by omega)
          have b2 := Int.tmod_lt_of_pos (-u) (b := -v) (by omega)
          have b3 := hneg u (-v)
          omega
      · omega
      · rcases le_or_lt 0 u with hu | hu
        · have b1 := Int.tmod_nonneg (a := u) v hu
          have b2 := Int.tmod_lt_of_pos u h
          omega
        · have b1 := Int.tmod_nonneg (a := -u) v (by omega)
          have b2 := Int.tmod_lt_of_pos (-u) h
          have b3 := hneg u v
          omega
    have k1 := key a e he
    have k2 := key b f hf
    have k3 := key c g hgn
    have k4 := key d h hh
    rw [h1, h2, h3] at k1 ⊢
    rw [h2, h3] at k2
    rw [h3] at k3
    omega
  · apply Prod.Lex.left
    cases sx <;> cases sy <;> simp_all <;> omega
  · apply Prod.Lex.left
    have hsx : sx = false := by
      rcases hch with ⟨h, -⟩ | h
      · exact h
      · cases sx
        · rfl
        · exact absurd ⟨rfl, h⟩ hstop
    subst hsx
    cases sy <;> simp_all
  · apply Prod.Lex.left
    cases sx <;> cases sy <;> simp_all <;> omega
  · apply Prod.Lex.left
    have hsy : sy = false := by
      cases sy
      · rfl
      · exact absurd (Or.inr rfl) hch
    subst hsy
    cases sx <;> simp_all

/-- `ContFrac.bihomographic` / `_bihomographic_transform` entry (lines
85-94, 250-264): the generator body first returns the empty stream when
`e = f = g = h = 0` (∞), then raises when any of `e,f,g,h` is negative,
then runs the ingest/egest loop with both stop flags clear. -/
def bihomographic (x y : List ℤ) (a b c d e f g h : ℤ) : Except Err (List ℤ) :=
  if e = 0 ∧ f = 0 ∧ g = 0 ∧ h = 0 then .ok []
  else if e < 0 ∨ f < 0 ∨ g < 0 ∨ h < 0 then .error .valueErr
  else .ok (bihomRun x y false false a b c d e f g h)

/-- `ContFrac.__neg__` (lines 351-354): split off the first coefficient `a`
and apply the homographic transform `(-a, -1, 1, 0)` to the remainder. -/
def negCF (L : List ℤ) : Except Err (List ℤ) :=
  (splitCF L).map fun p => homographic p.2 (-p.1) (-1) 1 0

/-- `ContFrac.__abs__` (lines 357-360): like `__neg__` when the first
coefficient is negative, otherwise the value itself. -/
def absCF (L : List ℤ) : Except Err (List ℤ) :=
  (splitCF L).map fun p => if p.1 < 0 then homographic p.2 (-p.1) (-1) 1 0 else L

/-- `ContFrac.__lt__` against a rational (lines 380-382):
`self.as_rational() < other`. -/
def ltQ (L : List ℤ) (q : ℚ) : Except Err Bool :=
  (asRational L).map fun r => decide (r < q)

/-- `ContFrac.__eq__` against a rational (lines 365-367):
`self.as_rational() == other`. -/
def eqQ (L : List ℤ) (q : ℚ) : Except Err Bool :=
  (asRational L).map fun r => decide (r = q)

/-- `ContFrac.__le__` against a rational (lines 400-401):
`self < other or self == other`. -/
def leQ (L : List ℤ) (q : ℚ) : Except Err Bool :=
  (asRational L).map fun r => decide (r < q) || decide (r = q)

/-- `ContFrac.__gt__` against a rational (lines 404-405): literally
`not (self < other)`. -/
def gtQ (L : List ℤ) (q : ℚ) : Except Err Bool :=
  (asRational L).map fun r => !(decide (r < q))

/-- `ContFrac.__ge__` against a rational (lines 408-409):
`self > other or self == other`. -/
def geQ (L : List ℤ) (q : ℚ) : Except Err Bool :=
  (asRational L).map fun r => !(decide (r < q)) || decide (r = q)

/-- `ContFrac.__truediv__` by an int or `Fraction` (lines 483-495):
normalize the divisor to `n/d` with `d > 0` (automatic for ℚ), raise
`OverflowError` when `n == 0`, else `homographic(d, 0, 0, n)`. -/
def divCFq (L : List ℤ) (q : ℚ) : Except Err (List ℤ) :=
  if q.num = 0 then .error .overflow
  else .ok (homographic L (q.den : ℤ) 0 0 q.num)

/-- `ContFrac.__truediv__` by another continued fraction (lines 497-503):
`other == 0` and `other > 0` both go through `other.as_rational()`
(`__gt__` being `not (self < other)`), then one of two bihomographic
transforms, negating the divisor in the negative branch. -/
def divCFCF (L M : List ℤ) : Except Err (List ℤ) :=
  match asRational M with
  | .error e => .error e
  | .ok rm =>
    if rm = 0 then .error .overflow
    else
      if ¬(rm < 0) then bihomographic L M 0 1 0 0 0 0 1 0
      else
        match negCF M with
        | .error e => .error e
        | .ok M2 => bihomographic L M2 0 (-1) 0 0 0 0 1 0

/-- `ContFrac.__rtruediv__` (lines 506-518): rational divided by a continued
fraction; raises `OverflowError` when `self == 0` (via `as_rational`), else
`homographic(0, n, d, 0)`. -/
def rdivCF (q : ℚ) (M : List ℤ) : Except Err (List ℤ) :=
  match asRational M with
  | .error e => .error e
  | .ok rm =>
    if rm = 0 then .error .overflow
    else .ok (homographic M 0 q.num (q.den : ℤ) 0)

/-- `ContFrac.bihomographic` as invoked by a caller (lines 250-264): the
method only wraps the deferred generator in a new handle — the generator
body (with its coefficient checks) does not run until the first coefficient
is pulled, so the request itself never raises. -/
def bihomographicRequest (x y : List ℤ) (a b c d e f g h : ℤ) :
    Except Err (List ℤ × List ℤ × ℤ × ℤ × ℤ × ℤ × ℤ × ℤ × ℤ × ℤ) :=
  .ok (x, y, a, b, c, d, e, f, g, h)

/-- First traversal of the handle produced by `bihomographicRequest`: runs
the generator body of `_bihomographic_transform`. -/
def bihomTraverse (r : List ℤ × List ℤ × ℤ × ℤ × ℤ × ℤ × ℤ × ℤ × ℤ × ℤ) :
    Except Err (List ℤ) :=
  bihomographic r.1 r.2.1 r.2.2.1 r.2.2.2.1 r.2.2.2.2.1 r.2.2.2.2.2.1
    r.2.2.2.2.2.2.1 r.2.2.2.2.2.2.2.1 r.2.2.2.2.2.2.2.2.1 r.2.2.2.2.2.2.2.2.2

/-- Modelled from the spec (§4.2 Egest, design note §9): the homographic
engine with the *strict floor-equality* egest test — emit when `c ≠ 0`,
`d ≠ 0` and `floor(a/c) = floor(b/d) = q`, with no sign guard, no `q ≠ 0`
guard, and floor division instead of truncation; ingest and final-residual
behavior unchanged.  Fuel-indexed; `none` means the fuel ran out, so a
`some` result is a completed run. -/
def homogSpecGo : Nat → List ℤ → ℤ → ℤ → ℤ → ℤ → Option (List ℤ)
  | 0, _, _, _, _, _ => none
  | fuel + 1, x, a, b, c, d =>
    if c ≠ 0 ∧ d ≠ 0 ∧ a.fdiv c = b.fdiv d then
      (homogSpecGo fuel x c d (a - a.fdiv c * c) (b - a.fdiv c * d)).map (a.fdiv c :: ·)
    else
      match x with
      | p :: xs => homogSpecGo fuel xs (p * a + b) a (p * c + d) c
      | [] => some (if c ≠ 0 then euclid (Rat.divInt a c) else [])

instance {α β : Type} [DecidableEq α] [DecidableEq β] : DecidableEq (Except α β) := fun a b =>
  match a, b with
  | .error x, .error y =>
    if h : x = y then isTrue (by rw [h]) else isFalse (by intro he; cases he; exact h rfl)
  | .ok x, .ok y =>
    if h : x = y then isTrue (by rw [h]) else isFalse (by intro he; cases he; exact h rfl)
  | .error _, .ok _ => isFalse (by intro he; cases he)
  | .ok _, .error _ => isFalse (by intro he; cases he)

/-! ### Basic bridges between the computational model and Mathlib's ℚ -/

theorem num_cast_eq (x : ℚ) : (x.num : ℚ) = x * (x.den : ℚ) := by
  have hd : ((x.den : ℚ)) ≠ 0 := by
    exact_mod_cast x.den_nz
  calc (x.num : ℚ) = ((x.num : ℚ) / (x.den : ℚ)) * (x.den : ℚ) := by field_simp
    _ = x * (x.den : ℚ) := by rw [Rat.num_div_den]

theorem qsub_eq (x y : ℚ) : qsub x y = x - y := by
  unfold qsub
  rw [Rat.divInt_eq_div]
  have hx : ((x.den : ℚ)) ≠ 0 := by exact_mod_cast x.den_nz
  have hy : ((y.den : ℚ)) ≠ 0 := by exact_mod_cast y.den_nz
  have hx2 := num_cast_eq x
  have hy2 := num_cast_eq y
  push_cast
  field_simp
  linear_combination (y.den : ℚ) * hx2 - (x.den : ℚ) * hy2

theorem qabs_eq (x : ℚ) : qabs x = |x| := by
  unfold qabs
  split_ifs with h
  · rw [Rat.divInt_eq_div]
    push_cast
    rw [num_cast_eq x]
    have hx : x < 0 := by
      rw [← Rat.num_neg]
      exact h
    rw [abs_of_neg hx]
    have hd : ((x.den : ℚ)) ≠ 0 := by exact_mod_cast x.den_nz
    field_simp
  · have hx : 0 ≤ x := by
      rw [← Rat.num_nonneg]
      omega
    rw [abs_of_nonneg hx]

theorem divInt_cross (a c : ℤ) (hc : c ≠ 0) :
    (Rat.divInt a c).num * c = ((Rat.divInt a c).den : ℤ) * a := by
  have hcq : ((c : ℚ)) ≠ 0 := by exact_mod_cast hc
  have h1 : (Rat.divInt a c) * (c : ℚ) = (a : ℚ) := by
    rw [Rat.divInt_eq_div]
    field_simp
  have h2 : ((Rat.divInt a c).num : ℚ) * c = ((Rat.divInt a c).den : ℚ) * a := by
    rw [num_cast_eq]
    calc (Rat.divInt a c : ℚ) * ((Rat.divInt a c).den : ℚ) * (c : ℚ)
        = ((Rat.divInt a c) * (c : ℚ)) * ((Rat.divInt a c).den : ℚ) := by ring
      _ = ((Rat.divInt a c).den : ℚ) * a := by rw [h1]; ring
  exact_mod_cast h2

/-! ### Continuant pairs -/

theorem cfVec_nil : cfVec [] = (1, 0) := rfl

theorem cfVec_cons (a : ℤ) (L : List ℤ) :
    cfVec (a :: L) = (a * (cfVec L).1 + (cfVec L).2, (cfVec L).1) := rfl

theorem cfNum_nil : cfNum [] = 1 := rfl

theorem cfDen_nil : cfDen [] = 0 := rfl

theorem cfNum_cons (a : ℤ) (L : List ℤ) : cfNum (a :: L) = a * cfNum L + cfDen L := rfl

theorem cfDen_cons (a : ℤ) (L : List ℤ) : cfDen (a :: L) = cfNum L := rfl

theorem cfVec_ne_zero (L : List ℤ) : ¬(cfNum L = 0 ∧ cfDen L = 0) := by
  induction L with
  | nil => simp [cfNum_nil, cfDen_nil]
  | cons a L ih =>
    rintro ⟨h1, h2⟩
    rw [cfNum_cons] at h1
    rw [cfDen_cons] at h2
    rw [h2] at h1
    simp at h1
    exact ih ⟨h2, h1⟩

theorem cfVec_pos_of_ones (L : List ℤ) (h : ∀ a ∈ L, 1 ≤ a) :
    1 ≤ cfNum L ∧ 0 ≤ cfDen L := by
  induction L with
  | nil => simp [cfNum_nil, cfDen_nil]
  | cons a L ih =>
    have ha : 1 ≤ a := h a (by simp)
    obtain ⟨ihN, ihD⟩ := ih (fun b hb => h b (by simp [hb]))
    rw [cfNum_cons, cfDen_cons]
    have hmul : 1 * 1 ≤ a * cfNum L := mul_le_mul ha ihN (by norm_num) (by omega)
    exact ⟨by omega, by omega⟩

/-- Proportionality transfer: a list whose continuant pair is proportional
to `(A, B)` with `B ≠ 0` has exact value `A / B`. -/
theorem convLast_eq (L : List ℤ) (A B : ℤ) (hcross : cfNum L * B = cfDen L * A)
    (hB : B ≠ 0) : convLast L = (A : ℚ) / (B : ℚ) := by
  have hD : cfDen L ≠ 0 := by
    intro h0
    rw [h0] at hcross
    simp at hcross
    rcases hcross with h | h
    · exact cfVec_ne_zero L ⟨h, h0⟩
    · exact hB h
  unfold convLast
  rw [Rat.divInt_eq_div]
  rw [div_eq_div_iff (by exact_mod_cast hD) (by exact_mod_cast hB)]
  have h2 : cfNum L * B = A * cfDen L := by rw [hcross]; ring
  exact_mod_cast h2

/-! ### Euclid stream facts -/

theorem euclidAux_cross (n d : ℤ) (hd : 0 < d) :
    cfNum (euclidAux n d) * d = cfDen (euclidAux n d) * n := by
  induction n, d using euclidAux.induct with
  | case1 n d hle => omega
  | case2 n d hle hr =>
    have hone : euclidAux n d = [n.fdiv d] := by
      conv_lhs => rw [euclidAux.eq_def]
      simp [hle, hr]
    rw [hone, cfNum_cons, cfDen_cons, cfNum_nil, cfDen_nil]
    have hn : d * n.fdiv d + n.emod d = n := by
      rw [Int.fdiv_eq_ediv n (by omega)]
      exact Int.ediv_add_emod n d
    linear_combination hn - hr
  | case3 n d hle hr ih =>
    have hstep : euclidAux n d = n.fdiv d :: euclidAux d (n.emod d) := by
      conv_lhs => rw [euclidAux.eq_def]
      simp [hle, hr]
    have hr0 : 0 < n.emod d := by
      have h1 : 0 ≤ n.emod d := Int.emod_nonneg n (by omega)
      omega
    have ih2 := ih hr0
    rw [hstep, cfNum_cons, cfDen_cons]
    have hn : d * n.fdiv d + n.emod d = n := by
      rw [Int.fdiv_eq_ediv n (by omega)]
      exact Int.ediv_add_emod n d
    linear_combination cfNum (euclidAux d (n.emod d)) * hn - ih2

theorem euclidAux_step (n d : ℤ) (hd : 0 < d) :
    euclidAux n d = n.fdiv d :: (if n.emod d = 0 then [] else euclidAux d (n.emod d)) := by
  conv_lhs => rw [euclidAux.eq_def]
  by_cases hr : n.emod d = 0 <;> simp [show ¬ d ≤ 0 by omega, hr]

theorem euclidAux_ne_nil (n d : ℤ) (hd : 0 < d) : euclidAux n d ≠ [] := by
  rw [euclidAux_step n d hd]
  simp

theorem euclidAux_all_ge_one (n d : ℤ) (hd : 0 < d) (hn : d ≤ n) :
    ∀ a ∈ euclidAux n d, 1 ≤ a := by
  induction n, d using euclidAux.induct with
  | case1 n d hle => omega
  | case2 n d hle hr =>
    intro a ha
    rw [euclidAux_step n d (by omega)] at ha
    simp [hr] at ha
    subst ha
    rw [Int.fdiv_eq_ediv n (by omega)]
    rw [Int.le_ediv_iff_mul_le (by omega)]
    omega
  | case3 n d hle hr ih =>
    intro a ha
    rw [euclidAux_step n d (by omega)] at ha
    simp [hr] at ha
    have h1 : 0 ≤ n.emod d := Int.emod_nonneg n (by omega)
    have h2 : n.emod d < d := Int.emod_lt_of_pos n (by omega)
    rcases ha with ha | ha
    · subst ha
      rw [Int.fdiv_eq_ediv n (by omega)]
      rw [Int.le_ediv_iff_mul_le (by omega)]
      omega
    · exact ih (by omega) (by omega) a ha

theorem euclidAux_tail_ge_one (n d : ℤ) (hd : 0 < d) :
    ∀ a ∈ (euclidAux n d).tail, 1 ≤ a := by
  rw [euclidAux_step n d hd]
  simp only [List.tail_cons]
  split_ifs with hr
  · simp
  · have h1 : 0 ≤ n.emod d := Int.emod_nonneg n (by omega)
    have h2 : n.emod d < d := Int.emod_lt_of_pos n (by omega)
    exact euclidAux_all_ge_one d (n.emod d) (by omega) (by omega)

theorem euclidAux_den_pos (n d : ℤ) (hd : 0 < d) : 0 < cfDen (euclidAux n d) := by
  rw [euclidAux_step n d hd, cfDen_cons]
  split_ifs with hr
  · simp [cfNum_nil]
  · have h1 : 0 ≤ n.emod d := Int.emod_nonneg n (by omega)
    have h2 : n.emod d < d := Int.emod_lt_of_pos n (by omega)
    have := cfVec_pos_of_ones (euclidAux d (n.emod d))
      (euclidAux_all_ge_one d (n.emod d) (by omega) (by omega))
    omega

theorem rat_den_pos_int (r : ℚ) : (0 : ℤ) < (r.den : ℤ) := by
  exact_mod_cast r.pos

theorem euclid_cross (r : ℚ) :
    cfNum (euclid r) * (r.den : ℤ) = cfDen (euclid r) * r.num :=
  euclidAux_cross r.num (r.den : ℤ) (rat_den_pos_int r)

theorem euclid_ne_nil (r : ℚ) : euclid r ≠ [] :=
  euclidAux_ne_nil r.num (r.den : ℤ) (rat_den_pos_int r)

theorem euclid_den_pos (r : ℚ) : 0 < cfDen (euclid r) :=
  euclidAux_den_pos r.num (r.den : ℤ) (rat_den_pos_int r)

theorem euclid_tail_ge_one (r : ℚ) : ∀ a ∈ (euclid r).tail, 1 ≤ a :=
  euclidAux_tail_ge_one r.num (r.den : ℤ) (rat_den_pos_int r)

theorem convLast_euclid (r : ℚ) : convLast (euclid r) = r := by
  have h := convLast_eq (euclid r) r.num (r.den : ℤ) (euclid_cross r)
    (by have := rat_den_pos_int r; omega)
  rw [h]
  exact_mod_cast Rat.num_div_den r

/-! ### The materializer walk -/

theorem ratWalk_ok (L : List ℤ) : ∀ (best : Option ℚ) (pk qk pk2 qk2 : ℤ),
    noStopWalk best pk qk pk2 qk2 L = true → L ≠ [] →
    ratWalk best pk qk pk2 qk2 L =
      .ok (Rat.divInt (pk * cfNum L + pk2 * cfDen L) (qk * cfNum L + qk2 * cfDen L)) := by
  induction L with
  | nil => intro _ _ _ _ _ _ hne; exact absurd rfl hne
  | cons a rest ih =>
    intro best pk qk pk2 qk2 hns _
    simp only [noStopWalk] at hns
    simp only [ratWalk]
    by_cases hq : a * qk + qk2 = 0
    · simp [hq] at hns
    · simp only [if_neg hq] at hns ⊢
      rcases hrest : rest with - | ⟨b, rest2⟩
      · subst hrest
        match best with
        | some bb =>
          by_cases heps :
              qabs (qsub (Rat.divInt (a * pk + pk2) (a * qk + qk2)) bb) < eps
          · simp [heps] at hns
          · simp only [if_neg heps]
            simp only [ratWalk]
            rw [cfNum_cons, cfDen_cons, cfNum_nil, cfDen_nil]
            congr 1 <;> ring
        | none =>
          simp only [ratWalk]
          rw [cfNum_cons, cfDen_cons, cfNum_nil, cfDen_nil]
          congr 1 <;> ring
      · have hne2 : rest ≠ [] := by rw [hrest]; simp
        rw [← hrest] at *
        match best with
        | some bb =>
          by_cases heps :
              qabs (qsub (Rat.divInt (a * pk + pk2) (a * qk + qk2)) bb) < eps
          · simp [heps] at hns
          · simp only [if_neg heps] at hns ⊢
            rw [ih _ _ _ _ _ hns hne2]
            rw [cfNum_cons, cfDen_cons]
            congr 1 <;> ring
        | none =>
          rw [ih _ _ _ _ _ hns hne2]
          rw [cfNum_cons, cfDen_cons]
          congr 1 <;> ring

theorem asRational_noStop (L : List ℤ) (h : noStop L = true) (hne : L ≠ []) :
    asRational L = .ok (convLast L) := by
  unfold asRational
  rw [ratWalk_ok L none 1 0 0 1 h hne]
  unfold convLast cfNum cfDen
  congr 1 <;> ring

theorem ratWalk_some_ne_overflow (L : List ℤ) :
    ∀ (b : ℚ) (pk qk pk2 qk2 : ℤ),
    ratWalk (some b) pk qk pk2 qk2 L ≠ .error .overflow := by
  induction L with
  | nil => intro b pk qk pk2 qk2; simp [ratWalk]
  | cons a rest ih =>
    intro b pk qk pk2 qk2
    simp only [ratWalk]
    by_cases hq : a * qk + qk2 = 0
    · simp [hq]
    · simp only [if_neg hq]
      by_cases heps :
          qabs (qsub (Rat.divInt (a * pk + pk2) (a * qk + qk2)) b) < eps
      · simp [heps]
      · simp only [if_neg heps]
        exact ih _ _ _ _ _

theorem asRational_overflow_iff (L : List ℤ) :
    asRational L = .error .overflow ↔ L = [] := by
  constructor
  · intro h
    rcases L with - | ⟨a, rest⟩
    · rfl
    · exfalso
      unfold asRational at h
      simp only [ratWalk] at h
      by_cases hq : a * 0 + 1 = 0
      · omega
      · simp only [if_neg hq] at h
        exact ratWalk_some_ne_overflow rest _ _ _ _ _ h
  · intro h
    subst h
    rfl

/-! ### Homographic engine correctness -/

theorem homogRun_egest (x : List ℤ) (a b c d : ℤ)
    (hg : c ≠ 0 ∧ d ≠ 0 ∧ 0 < c * d ∧ a.tdiv c = b.tdiv d ∧ b.tdiv d ≠ 0) :
    homogRun x a b c d =
      a.tdiv c :: homogRun x c d (a - a.tdiv c * c) (b - a.tdiv c * d) := by
  conv_lhs => rw [homogRun.eq_def]
  simp [hg]

theorem homogRun_ingest (p : ℤ) (xs : List ℤ) (a b c d : ℤ)
    (hg : ¬(c ≠ 0 ∧ d ≠ 0 ∧ 0 < c * d ∧ a.tdiv c = b.tdiv d ∧ b.tdiv d ≠ 0)) :
    homogRun (p :: xs) a b c d = homogRun xs (p * a + b) a (p * c + d) c := by
  conv_lhs => rw [homogRun.eq_def]
  simp [hg]

theorem homogRun_exhaust (a b c d : ℤ)
    (hg : ¬(c ≠ 0 ∧ d ≠ 0 ∧ 0 < c * d ∧ a.tdiv c = b.tdiv d ∧ b.tdiv d ≠ 0)) :
    homogRun [] a b c d = if c ≠ 0 then euclid (Rat.divInt a c) else [] := by
  conv_lhs => rw [homogRun.eq_def]
  simp [hg]

theorem homogRun_cross (x : List ℤ) (a b c d : ℤ) :
    cfNum (homogRun x a b c d) * (c * cfNum x + d * cfDen x) =
    cfDen (homogRun x a b c d) * (a * cfNum x + b * cfDen x) := by
  induction x, a, b, c, d using homogRun.induct with
  | case1 x a b c d hg ih =>
    rw [homogRun_egest x a b c d hg, cfNum_cons, cfDen_cons]
    linear_combination (-1 : ℤ) * ih
  | case2 a b c d hg p xs ih =>
    rw [homogRun_ingest p xs a b c d hg, cfNum_cons, cfDen_cons]
    linear_combination ih
  | case3 a b c d hg hc =>
    rw [homogRun_exhaust a b c d hg, if_pos hc]
    rw [cfNum_nil, cfDen_nil]
    have h1 := euclid_cross (Rat.divInt a c)
    have h2 := divInt_cross a c hc
    have h3 := rat_den_pos_int (Rat.divInt a c)
    apply mul_left_cancel₀ (show ((Rat.divInt a c).den : ℤ) ≠ 0 by omega)
    linear_combination c * h1 + cfDen (euclid (Rat.divInt a c)) * h2
  | case4 a b c d hg hc =>
    rw [homogRun_exhaust a b c d hg, if_neg hc]
    rw [cfNum_nil, cfDen_nil]
    simp at hc
    subst hc
    ring

/-- Denominator transfer: for `x = euclid r`, the engine-level linear form
`(c, d)` applied to the continuant pair of `x` is proportional to
`c·r + d`. -/
theorem homographic_value (r : ℚ) (a b c d : ℤ)
    (hden : (c : ℚ) * r + (d : ℚ) ≠ 0) :
    homographic (euclid r) a b c d ≠ [] ∧
    convLast (homographic (euclid r) a b c d) =
      ((a : ℚ) * r + (b : ℚ)) / ((c : ℚ) * r + (d : ℚ)) := by
  have hrd : ((r.den : ℚ)) ≠ 0 := by
    have := rat_den_pos_int r
    intro h
    exact_mod_cast absurd h (by exact_mod_cast this.ne.symm)
  have hw : ¬(c = 0 ∧ d = 0) := by
    rintro ⟨h1, h2⟩
    subst h1; subst h2
    simp at hden
  have hwrap : homographic (euclid r) a b c d = homogRun (euclid r) a b c d := by
    unfold homographic
    rw [if_neg hw]
  have hcross := homogRun_cross (euclid r) a b c d
  have hXY := euclid_cross r
  have hY := euclid_den_pos r
  have hB : cfNum (homogRun (euclid r) a b c d) *
        (cfDen (euclid r) * (c * r.num + d * (r.den : ℤ))) =
      cfDen (homogRun (euclid r) a b c d) *
        (cfDen (euclid r) * (a * r.num + b * (r.den : ℤ))) := by
    linear_combination (r.den : ℤ) * hcross +
      (cfDen (homogRun (euclid r) a b c d) * a -
        cfNum (homogRun (euclid r) a b c d) * c) * hXY
  have hBc : cfNum (homogRun (euclid r) a b c d) * (c * r.num + d * (r.den : ℤ)) =
      cfDen (homogRun (euclid r) a b c d) * (a * r.num + b * (r.den : ℤ)) := by
    apply mul_left_cancel₀ (show cfDen (euclid r) ≠ 0 by omega)
    linear_combination hB
  have hBnum : ((c * r.num + d * (r.den : ℤ) : ℤ) : ℚ) =
      ((c : ℚ) * r + (d : ℚ)) * (r.den : ℚ) := by
    push_cast
    rw [num_cast_eq r]
    ring
  have hAnum : ((a * r.num + b * (r.den : ℤ) : ℤ) : ℚ) =
      ((a : ℚ) * r + (b : ℚ)) * (r.den : ℚ) := by
    push_cast
    rw [num_cast_eq r]
    ring
  have hBne : c * r.num + d * (r.den : ℤ) ≠ 0 := by
    intro h0
    apply hden
    have h1 : ((c * r.num + d * (r.den : ℤ) : ℤ) : ℚ) = 0 := by
      rw [h0]; simp
    rw [hBnum] at h1
    rcases mul_eq_zero.mp h1 with h | h
    · exact h
    · exact absurd h hrd
  constructor
  · rw [hwrap]
    intro hnil
    rw [hnil, cfNum_nil, cfDen_nil] at hBc
    simp at hBc
    exact hBne hBc
  · rw [hwrap]
    rw [convLast_eq _ _ _ hBc hBne]
    rw [hAnum, hBnum]
    rw [mul_div_mul_right _ _ hrd]

theorem homographic_infty (x : List ℤ) (a b : ℤ) : homographic x a b 0 0 = [] := by
  unfold homographic
  simp

/-! ### Bihomographic engine correctness -/

theorem bihomRun_finish (x y : List ℤ) (sx sy : Bool) (a b c d e f g h : ℤ)
    (hstop : sx = true ∧ sy = true) :
    bihomRun x y sx sy a b c d e f g h =
      if e ≠ 0 then euclid (Rat.divInt a e) else [] := by
  conv_lhs => rw [bihomRun.eq_def]
  simp [hstop]

theorem bihomRun_egest (x y : List ℤ) (sx sy : Bool) (a b c d e f g h : ℤ)
    (hstop : ¬(sx = true ∧ sy = true))
    (hg : e ≠ 0 ∧ f ≠ 0 ∧ g ≠ 0 ∧ h ≠ 0 ∧ a.tdiv e = b.tdiv f ∧
      b.tdiv f = c.tdiv g ∧ c.tdiv g = d.tdiv h ∧ d.tdiv h ≠ 0) :
    bihomRun x y sx sy a b c d e f g h =
      a.tdiv e :: bihomRun x y sx sy e f g h
        (a - a.tdiv e * e) (b - a.tdiv e * f) (c - a.tdiv e * g) (d - a.tdiv e * h) := by
  conv_lhs => rw [bihomRun.eq_def]
  simp [hstop, hg]

theorem bihomRun_ingest_x (p : ℤ) (xs y : List ℤ) (sx sy : Bool) (a b c d e f g h : ℤ)
    (hstop : ¬(sx = true ∧ sy = true))
    (hg : ¬(e ≠ 0 ∧ f ≠ 0 ∧ g ≠ 0 ∧ h ≠ 0 ∧ a.tdiv e = b.tdiv f ∧
      b.tdiv f = c.tdiv g ∧ c.tdiv g = d.tdiv h ∧ d.tdiv h ≠ 0))
    (hch : (sx = false ∧ sy = false ∧ f ≠ 0 ∧ g ≠ 0 ∧ h ≠ 0 ∧
        qabs (qsub (Rat.divInt b f) (Rat.divInt d h)) >
          qabs (qsub (Rat.divInt c g) (Rat.divInt d h))) ∨ sy = true) :
    bihomRun (p :: xs) y sx sy a b c d e f g h =
      bihomRun xs y sx sy (a*p+c) (b*p+d) a b (e*p+g) (f*p+h) e f := by
  conv_lhs => rw [bihomRun.eq_def]
  simp only [dif_neg hstop, dif_neg hg, dif_pos hch]

theorem bihomRun_exhaust_x (y : List ℤ) (sx sy : Bool) (a b c d e f g h : ℤ)
    (hstop : ¬(sx = true ∧ sy = true))
    (hg : ¬(e ≠ 0 ∧ f ≠ 0 ∧ g ≠ 0 ∧ h ≠ 0 ∧ a.tdiv e = b.tdiv f ∧
      b.tdiv f = c.tdiv g ∧ c.tdiv g = d.tdiv h ∧ d.tdiv h ≠ 0))
    (hch : (sx = false ∧ sy = false ∧ f ≠ 0 ∧ g ≠ 0 ∧ h ≠ 0 ∧
        qabs (qsub (Rat.divInt b f) (Rat.divInt d h)) >
          qabs (qsub (Rat.divInt c g) (Rat.divInt d h))) ∨ sy = true) :
    bihomRun [] y sx sy a b c d e f g h = bihomRun [] y true sy a b c d e f g h := by
  conv_lhs => rw [bihomRun.eq_def]
  simp only [dif_neg hstop, dif_neg hg, dif_pos hch]

theorem bihomRun_ingest_y (x : List ℤ) (p : ℤ) (ys : List ℤ) (sx sy : Bool)
    (a b c d e f g h : ℤ)
    (hstop : ¬(sx = true ∧ sy = true))
    (hg : ¬(e ≠ 0 ∧ f ≠ 0 ∧ g ≠ 0 ∧ h ≠ 0 ∧ a.tdiv e = b.tdiv f ∧
      b.tdiv f = c.tdiv g ∧ c.tdiv g = d.tdiv h ∧ d.tdiv h ≠ 0))
    (hch : ¬((sx = false ∧ sy = false ∧ f ≠ 0 ∧ g ≠ 0 ∧ h ≠ 0 ∧
        qabs (qsub (Rat.divInt b f) (Rat.divInt d h)) >
          qabs (qsub (Rat.divInt c g) (Rat.divInt d h))) ∨ sy = true)) :
    bihomRun x (p :: ys) sx sy a b c d e f g h =
      bihomRun x ys sx sy (a*p+b) a (c*p+d) c (e*p+f) e (g*p+h) g := by
  conv_lhs => rw [bihomRun.eq_def]
  simp only [dif_neg hstop, dif_neg hg, dif_neg hch]

theorem bihomRun_exhaust_y (x : List ℤ) (sx sy : Bool) (a b c d e f g h : ℤ)
    (hstop : ¬(sx = true ∧ sy = true))
    (hg : ¬(e ≠ 0 ∧ f ≠ 0 ∧ g ≠ 0 ∧ h ≠ 0 ∧ a.tdiv e = b.tdiv f ∧
      b.tdiv f = c.tdiv g ∧ c.tdiv g = d.tdiv h ∧ d.tdiv h ≠ 0))
    (hch : ¬((sx = false ∧ sy = false ∧ f ≠ 0 ∧ g ≠ 0 ∧ h ≠ 0 ∧
        qabs (qsub (Rat.divInt b f) (Rat.divInt d h)) >
          qabs (qsub (Rat.divInt c g) (Rat.divInt d h))) ∨ sy = true)) :
    bihomRun x [] sx sy a b c d e f g h = bihomRun x [] sx true a b c d e f g h := by
  conv_lhs => rw [bihomRun.eq_def]
  simp only [dif_neg hstop, dif_neg hg, dif_neg hch]

theorem bihomRun_cross (x y : List ℤ) (sx sy : Bool) (a b c d e f g h : ℤ) :
    (sx = true → x = []) → (sy = true → y = []) →
    cfNum (bihomRun x y sx sy a b c d e f g h) *
      (e * (cfNum x * cfNum y) + f * (cfNum x * cfDen y) +
        g * (cfDen x * cfNum y) + h * (cfDen x * cfDen y)) =
    cfDen (bihomRun x y sx sy a b c d e f g h) *
      (a * (cfNum x * cfNum y) + b * (cfNum x * cfDen y) +
        c * (cfDen x * cfNum y) + d * (cfDen x * cfDen y)) := by
  induction x, y, sx, sy, a, b, c, d, e, f, g, h using bihomRun.induct with
  | case1 x y sx sy a b c d e f g h hstop he =>
    intro hx hy
    rw [hx hstop.1, hy hstop.2]
    rw [bihomRun_finish [] [] sx sy a b c d e f g h hstop, if_pos he]
    simp only [cfNum_nil, cfDen_nil]
    have h1 := euclid_cross (Rat.divInt a e)
    have h2 := divInt_cross a e he
    have h3 := rat_den_pos_int (Rat.divInt a e)
    apply mul_left_cancel₀ (show ((Rat.divInt a e).den : ℤ) ≠ 0 by omega)
    linear_combination e * h1 + cfDen (euclid (Rat.divInt a e)) * h2
  | case2 x y sx sy a b c d e f g h hstop he =>
    intro hx hy
    rw [hx hstop.1, hy hstop.2]
    rw [bihomRun_finish [] [] sx sy a b c d e f g h hstop, if_neg he]
    simp only [cfNum_nil, cfDen_nil]
    simp at he
    subst he
    ring
  | case3 x y sx sy a b c d e f g h hstop hg ih =>
    intro hx hy
    rw [bihomRun_egest x y sx sy a b c d e f g h hstop hg]
    rw [cfNum_cons, cfDen_cons]
    linear_combination (-1 : ℤ) * ih hx hy
  | case4 y sx sy a b c d e f g h hstop hg hch p xs ih =>
    intro hx hy
    rw [bihomRun_ingest_x p xs y sx sy a b c d e f g h hstop hg hch]
    rw [cfNum_cons, cfDen_cons]
    have hx2 : sx = true → xs = [] := by
      intro hsx
      exact absurd (hx hsx) (by simp)
    linear_combination ih hx2 hy
  | case5 y sx sy a b c d e f g h hstop hg hch ih =>
    intro hx hy
    rw [bihomRun_exhaust_x y sx sy a b c d e f g h hstop hg hch]
    exact ih (fun _ => rfl) hy
  | case6 x sx sy a b c d e f g h hstop hg hch p ys ih =>
    intro hx hy
    rw [bihomRun_ingest_y x p ys sx sy a b c d e f g h hstop hg hch]
    rw [cfNum_cons, cfDen_cons]
    have hy2 : sy = true → ys = [] := by
      intro hsy
      exact absurd (hy hsy) (by simp)
    linear_combination ih hx hy2
  | case7 x sx sy a b c d e f g h hstop hg hch ih =>
    intro hx hy
    rw [bihomRun_exhaust_y x sx sy a b c d e f g h hstop hg hch]
    exact ih hx (fun _ => rfl)

theorem bihomographic_value (rx ry : ℚ) (a b c d e f g h : ℤ)
    (he : 0 ≤ e) (hf : 0 ≤ f) (hgc : 0 ≤ g) (hh : 0 ≤ h)
    (hnz : ¬(e = 0 ∧ f = 0 ∧ g = 0 ∧ h = 0))
    (hden : (e : ℚ) * rx * ry + (f : ℚ) * rx + (g : ℚ) * ry + (h : ℚ) ≠ 0) :
    bihomographic (euclid rx) (euclid ry) a b c d e f g h =
      .ok (bihomRun (euclid rx) (euclid ry) false false a b c d e f g h) ∧
    bihomRun (euclid rx) (euclid ry) false false a b c d e f g h ≠ [] ∧
    convLast (bihomRun (euclid rx) (euclid ry) false false a b c d e f g h) =
      ((a : ℚ) * rx * ry + (b : ℚ) * rx + (c : ℚ) * ry + (d : ℚ)) /
        ((e : ℚ) * rx * ry + (f : ℚ) * rx + (g : ℚ) * ry + (h : ℚ)) := by
  have hxd := rat_den_pos_int rx
  have hyd := rat_den_pos_int ry
  have hxdq : ((rx.den : ℚ)) ≠ 0 := by
    intro h0
    have : ((rx.den : ℤ) : ℚ) = 0 := by exact_mod_cast h0
    have : (rx.den : ℤ) = 0 := by exact_mod_cast this
    omega
  have hydq : ((ry.den : ℚ)) ≠ 0 := by
    intro h0
    have : ((ry.den : ℤ) : ℚ) = 0 := by exact_mod_cast h0
    have : (ry.den : ℤ) = 0 := by exact_mod_cast this
    omega
  have hwrap : bihomographic (euclid rx) (euclid ry) a b c d e f g h =
      .ok (bihomRun (euclid rx) (euclid ry) false false a b c d e f g h) := by
    unfold bihomographic
    rw [if_neg hnz, if_neg (by omega)]
  refine ⟨hwrap, ?_⟩
  have hcross := bihomRun_cross (euclid rx) (euclid ry) false false a b c d e f g h
    (by simp) (by simp)
  have hX := euclid_cross rx
  have hY := euclid_cross ry
  have hXd := euclid_den_pos rx
  have hYd := euclid_den_pos ry
  -- scale the engine-level forms to the rational bilinear forms
  have hSE : (e * (cfNum (euclid rx) * cfNum (euclid ry)) +
        f * (cfNum (euclid rx) * cfDen (euclid ry)) +
        g * (cfDen (euclid rx) * cfNum (euclid ry)) +
        h * (cfDen (euclid rx) * cfDen (euclid ry))) * ((rx.den : ℤ) * (ry.den : ℤ)) =
      (cfDen (euclid rx) * cfDen (euclid ry)) *
        (e * (rx.num * ry.num) + f * (rx.num * (ry.den : ℤ)) +
          g * ((rx.den : ℤ) * ry.num) + h * ((rx.den : ℤ) * (ry.den : ℤ))) := by
    linear_combination
      (e * cfNum (euclid ry) * (ry.den : ℤ) + f * cfDen (euclid ry) * (ry.den : ℤ)) * hX +
      (e * cfDen (euclid rx) * rx.num + g * cfDen (euclid rx) * (rx.den : ℤ)) * hY
  have hSA : (a * (cfNum (euclid rx) * cfNum (euclid ry)) +
        b * (cfNum (euclid rx) * cfDen (euclid ry)) +
        c * (cfDen (euclid rx) * cfNum (euclid ry)) +
        d * (cfDen (euclid rx) * cfDen (euclid ry))) * ((rx.den : ℤ) * (ry.den : ℤ)) =
      (cfDen (euclid rx) * cfDen (euclid ry)) *
        (a * (rx.num * ry.num) + b * (rx.num * (ry.den : ℤ)) +
          c * ((rx.den : ℤ) * ry.num) + d * ((rx.den : ℤ) * (ry.den : ℤ))) := by
    linear_combination
      (a * cfNum (euclid ry) * (ry.den : ℤ) + b * cfDen (euclid ry) * (ry.den : ℤ)) * hX +
      (a * cfDen (euclid rx) * rx.num + c * cfDen (euclid rx) * (rx.den : ℤ)) * hY
  have hNB : cfNum (bihomRun (euclid rx) (euclid ry) false false a b c d e f g h) *
        ((cfDen (euclid rx) * cfDen (euclid ry)) *
          (e * (rx.num * ry.num) + f * (rx.num * (ry.den : ℤ)) +
            g * ((rx.den : ℤ) * ry.num) + h * ((rx.den : ℤ) * (ry.den : ℤ)))) =
      cfDen (bihomRun (euclid rx) (euclid ry) false false a b c d e f g h) *
        ((cfDen (euclid rx) * cfDen (euclid ry)) *
          (a * (rx.num * ry.num) + b * (rx.num * (ry.den : ℤ)) +
            c * ((rx.den : ℤ) * ry.num) + d * ((rx.den : ℤ) * (ry.den : ℤ)))) := by
    linear_combination
      (-(cfNum (bihomRun (euclid rx) (euclid ry) false false a b c d e f g h))) * hSE +
      (cfDen (bihomRun (euclid rx) (euclid ry) false false a b c d e f g h)) * hSA +
      ((rx.den : ℤ) * (ry.den : ℤ)) * hcross
  have hNBc : cfNum (bihomRun (euclid rx) (euclid ry) false false a b c d e f g h) *
        (e * (rx.num * ry.num) + f * (rx.num * (ry.den : ℤ)) +
          g * ((rx.den : ℤ) * ry.num) + h * ((rx.den : ℤ) * (ry.den : ℤ))) =
      cfDen (bihomRun (euclid rx) (euclid ry) false false a b c d e f g h) *
        (a * (rx.num * ry.num) + b * (rx.num * (ry.den : ℤ)) +
          c * ((rx.den : ℤ) * ry.num) + d * ((rx.den : ℤ) * (ry.den : ℤ))) := by
    apply mul_left_cancel₀
      (show cfDen (euclid rx) * cfDen (euclid ry) ≠ 0 by
        intro h0
        rcases mul_eq_zero.mp h0 with h0 | h0 <;> omega)
    linear_combination hNB
  have hBnum : ((e * (rx.num * ry.num) + f * (rx.num * (ry.den : ℤ)) +
        g * ((rx.den : ℤ) * ry.num) + h * ((rx.den : ℤ) * (ry.den : ℤ)) : ℤ) : ℚ) =
      ((e : ℚ) * rx * ry + (f : ℚ) * rx + (g : ℚ) * ry + (h : ℚ)) *
        ((rx.den : ℚ) * (ry.den : ℚ)) := by
    push_cast
    rw [num_cast_eq rx, num_cast_eq ry]
    ring
  have hAnum : ((a * (rx.num * ry.num) + b * (rx.num * (ry.den : ℤ)) +
        c * ((rx.den : ℤ) * ry.num) + d * ((rx.den : ℤ) * (ry.den : ℤ)) : ℤ) : ℚ) =
      ((a : ℚ) * rx * ry + (b : ℚ) * rx + (c : ℚ) * ry + (d : ℚ)) *
        ((rx.den : ℚ) * (ry.den : ℚ)) := by
    push_cast
    rw [num_cast_eq rx, num_cast_eq ry]
    ring
  have hBne : e * (rx.num * ry.num) + f * (rx.num * (ry.den : ℤ)) +
      g * ((rx.den : ℤ) * ry.num) + h * ((rx.den : ℤ) * (ry.den : ℤ)) ≠ 0 := by
    intro h0
    apply hden
    have h1 : ((e * (rx.num * ry.num) + f * (rx.num * (ry.den : ℤ)) +
        g * ((rx.den : ℤ) * ry.num) + h * ((rx.den : ℤ) * (ry.den : ℤ)) : ℤ) : ℚ) = 0 := by
      rw [h0]; simp
    rw [hBnum] at h1
    rcases mul_eq_zero.mp h1 with h1 | h1
    · exact h1
    · rcases mul_eq_zero.mp h1 with h1 | h1
      · exact absurd h1 hxdq
      · exact absurd h1 hydq
  constructor
  · intro hnil
    rw [hnil, cfNum_nil, cfDen_nil] at hNBc
    simp at hNBc
    exact hBne hNBc
  · rw [convLast_eq _ _ _ hNBc hBne]
    rw [hAnum, hBnum]
    rw [mul_div_mul_right _ _ (mul_ne_zero hxdq hydq)]

/-! ### Structure of the Euclid stream: head, tail, integer case -/

theorem euclid_split (r : ℚ) :
    euclid r = r.num.fdiv (r.den : ℤ) :: (euclid r).tail := by
  unfold euclid
  rw [euclidAux_step r.num (r.den : ℤ) (rat_den_pos_int r)]
  simp

theorem euclid_tail_nil_iff (r : ℚ) : (euclid r).tail = [] ↔ r.den = 1 := by
  unfold euclid
  rw [euclidAux_step r.num (r.den : ℤ) (rat_den_pos_int r)]
  simp only [List.tail_cons]
  constructor
  · intro htail
    by_cases hr : r.num.emod (r.den : ℤ) = 0
    · have hdvd : ((r.den : ℤ)) ∣ r.num := Int.dvd_of_emod_eq_zero hr
      have hdvd2 : r.den ∣ r.num.natAbs := by
        rw [← Int.natCast_dvd_natCast]
        exact Int.dvd_natAbs.mpr hdvd
      have hcop := r.reduced
      have := Nat.dvd_gcd hdvd2 (dvd_refl r.den)
      rw [Nat.Coprime] at hcop
      rw [hcop] at this
      exact Nat.dvd_one.mp this
    · rw [if_neg hr] at htail
      exact absurd htail (euclidAux_ne_nil _ _ (by
        have h1 : 0 ≤ r.num.emod (r.den : ℤ) := Int.emod_nonneg r.num (by
          have := rat_den_pos_int r; omega)
        omega))
  · intro hden
    have : r.num.emod (r.den : ℤ) = 0 := by
      rw [hden]
      exact_mod_cast Int.emod_one r.num
    rw [if_pos this]

theorem euclid_int (r : ℚ) (h : r.den = 1) : euclid r = [r.num] := by
  rw [euclid_split r, (euclid_tail_nil_iff r).mpr h]
  congr 1
  rw [h]
  exact_mod_cast Int.fdiv_one r.num

/-- Value of the negation transform `split` + `homographic(-a0, -1, 1, 0)`:
it is nonempty and its exact value is `-r`. -/
theorem neg_tail_value (r : ℚ) :
    homographic (euclid r).tail (-(r.num.fdiv (r.den : ℤ))) (-1) 1 0 ≠ [] ∧
    convLast (homographic (euclid r).tail (-(r.num.fdiv (r.den : ℤ))) (-1) 1 0) = -r := by
  have hT := cfVec_pos_of_ones (euclid r).tail (euclid_tail_ge_one r)
  have hE := euclid_cross r
  rw [euclid_split r, cfNum_cons, cfDen_cons] at hE
  have hrd := rat_den_pos_int r
  have hw : homographic (euclid r).tail (-(r.num.fdiv (r.den : ℤ))) (-1) 1 0 =
      homogRun (euclid r).tail (-(r.num.fdiv (r.den : ℤ))) (-1) 1 0 := by
    unfold homographic
    simp
  have hcross := homogRun_cross (euclid r).tail (-(r.num.fdiv (r.den : ℤ))) (-1) 1 0
  have hkey : cfNum (homogRun (euclid r).tail (-(r.num.fdiv (r.den : ℤ))) (-1) 1 0) *
        (r.den : ℤ) =
      cfDen (homogRun (euclid r).tail (-(r.num.fdiv (r.den : ℤ))) (-1) 1 0) * (-r.num) := by
    apply mul_left_cancel₀ (show cfNum (euclid r).tail ≠ 0 by omega)
    linear_combination (r.den : ℤ) * hcross -
      cfDen (homogRun (euclid r).tail (-(r.num.fdiv (r.den : ℤ))) (-1) 1 0) * hE
  constructor
  · rw [hw]
    intro hnil
    rw [hnil, cfNum_nil, cfDen_nil] at hcross
    simp at hcross
    omega
  · rw [hw, convLast_eq _ (-r.num) (r.den : ℤ) hkey (by omega)]
    push_cast
    rw [neg_div, Rat.num_div_den]

/-! ### Truncation facts for `__int__` -/

theorem ratTrunc_nonneg_case (r : ℚ) (h : 0 ≤ r.num.fdiv (r.den : ℤ)) :
    ratTrunc r = r.num.fdiv (r.den : ℤ) := by
  have hrd := rat_den_pos_int r
  have hn : 0 ≤ r.num := by
    by_contra hn
    have := Int.fdiv_neg' (a := r.num) (b := (r.den : ℤ)) (by omega) (by omega)
    omega
  unfold ratTrunc
  rw [← Int.fdiv_eq_tdiv hn (by omega)]

theorem ratTrunc_neg_noninteger (r : ℚ) (hneg : r.num < 0) (hden : r.den ≠ 1) :
    ratTrunc r = r.num.fdiv (r.den : ℤ) + 1 := by
  have hrd := rat_den_pos_int r
  have hmodne : r.num.emod (r.den : ℤ) ≠ 0 := by
    intro h0
    apply hden
    exact (euclid_tail_nil_iff r).mp (by
      unfold euclid
      rw [euclidAux_step r.num (r.den : ℤ) hrd]
      simp [h0])
  -- work out both divisions through Euclidean division
  have htd : r.num.tdiv (r.den : ℤ) = -((-r.num) / (r.den : ℤ)) := by
    have h := Int.neg_tdiv r.num (r.den : ℤ)
    rw [Int.tdiv_eq_ediv (by omega) (by omega)] at h
    omega
  have hfd : r.num.fdiv (r.den : ℤ) = r.num / (r.den : ℤ) := Int.fdiv_eq_ediv r.num (by omega)
  have h1 : (r.den : ℤ) * (r.num / (r.den : ℤ)) + r.num % (r.den : ℤ) = r.num :=
    Int.ediv_add_emod r.num (r.den : ℤ)
  have h2 : 0 ≤ r.num % (r.den : ℤ) := Int.emod_nonneg r.num (by omega)
  have h3 : r.num % (r.den : ℤ) < (r.den : ℤ) := Int.emod_lt_of_pos r.num (by omega)
  have h4 : r.num % (r.den : ℤ) ≠ 0 := hmodne
  have h5 : (-r.num) / (r.den : ℤ) = -(r.num / (r.den : ℤ)) - 1 := by
    have huniq := (Int.ediv_emod_unique (a := -r.num) (b := (r.den : ℤ))
      (r := (r.den : ℤ) - r.num % (r.den : ℤ))
      (q := -(r.num / (r.den : ℤ)) - 1) (by omega)).mpr
      ⟨by linear_combination -h1, by omega, by omega⟩
    exact huniq.1
  unfold ratTrunc
  rw [htd, hfd, h5]
  ring

theorem ratTrunc_int (r : ℚ) (h : r.den = 1) : ratTrunc r = r.num := by
  unfold ratTrunc
  rw [h]
  exact_mod_cast Int.tdiv_one r.num

theorem intCF_euclid (r : ℚ) : intCF (euclid r) = .ok (ratTrunc r) := by
  by_cases hden : r.den = 1
  · rw [euclid_int r hden, ratTrunc_int r hden]
    by_cases hn : 0 ≤ r.num
    · simp [intCF, hn]
    · simp [intCF, hn]
  · have hsplit := euclid_split r
    have htail : (euclid r).tail ≠ [] := by
      intro h0
      exact hden ((euclid_tail_nil_iff r).mp h0)
    rcases ht : (euclid r).tail with - | ⟨t, ts⟩
    · exact absurd ht htail
    · rw [ht] at hsplit
      rw [hsplit]
      by_cases hn : 0 ≤ r.num.fdiv (r.den : ℤ)
      · rw [ratTrunc_nonneg_case r hn]
        simp [intCF, hn]
      · have hneg : r.num < 0 := by
          by_contra hc
          exact hn (Int.fdiv_nonneg (by omega) (by have := rat_den_pos_int r; omega))
        rw [ratTrunc_neg_noninteger r hneg hden]
        simp [intCF, hn]

theorem bihomographic_div_ok (x y : List ℤ) :
    bihomographic x y 0 1 0 0 0 0 1 0 = .ok (bihomRun x y false false 0 1 0 0 0 0 1 0) := by
  unfold bihomographic
  rw [if_neg (by rintro ⟨-, -, hg, -⟩; omega), if_neg (by rintro (hx | hx | hx | hx) <;> omega)]

theorem bihomographic_divneg_ok (x y : List ℤ) :
    bihomographic x y 0 (-1) 0 0 0 0 1 0 =
      .ok (bihomRun x y false false 0 (-1) 0 0 0 0 1 0) := by
  unfold bihomographic
  rw [if_neg (by rintro ⟨-, -, hg, -⟩; omega), if_neg (by rintro (hx | hx | hx | hx) <;> omega)]

theorem negCF_cons (a : ℤ) (L : List ℤ) :
    negCF (a :: L) = .ok (homographic L (-a) (-1) 1 0) := rfl

theorem absCF_neg_eq (L : List ℤ) (a0 : ℤ) (T : List ℤ) (hL : L = a0 :: T)
    (hneg : a0 < 0) : absCF L = .ok (homographic T (-a0) (-1) 1 0) := by
  subst hL
  simp [absCF, splitCF, Except.map, hneg]

theorem absCF_nonneg_eq (L : List ℤ) (a0 : ℤ) (T : List ℤ) (hL : L = a0 :: T)
    (hpos : 0 ≤ a0) : absCF L = .ok L := by
  subst hL
  simp [absCF, splitCF, Except.map, not_lt.mpr hpos]

/-! ## Claim theorems -/

/-- C1 (amended): for every rational `r` whose convergent walk never brings
two consecutive convergents within the materializer epsilon (and never hits
a zero denominator), `as_rational` on `ContinuedFraction(r)` returns exactly
`r` and `as_integer_ratio` returns exactly `(r.num, r.den)`.  Rationals that
violate this walk condition can return an earlier convergent instead. -/
theorem claim1_roundtrip_exact (r : ℚ) (h : noStop (euclid r) = true) :
    asRational (euclid r) = .ok r ∧
    intRatioCF (euclid r) = .ok (r.num, (r.den : ℤ)) := by
  have h1 := asRational_noStop (euclid r) h (euclid_ne_nil r)
  rw [convLast_euclid r] at h1
  refine ⟨h1, ?_⟩
  unfold intRatioCF
  rw [h1]
  rfl

/-- C1 counterexample: for `r = 1/10^15` the consecutive convergents `0` and
`1/10^15` differ by less than the epsilon `1e-14`, so `as_rational` returns
the previous convergent `0` and `as_integer_ratio` returns `(0, 1)`, not
`(1, 10^15)` — the round trip fails exactly in the small-gap case the claim
includes. -/
theorem claim1_counterexample :
    asRational (euclid (Rat.divInt 1 1000000000000000)) = .ok 0 ∧
    intRatioCF (euclid (Rat.divInt 1 1000000000000000)) = .ok (0, 1) ∧
    (Rat.divInt 1 1000000000000000 : ℚ) ≠ 0 ∧
    (Rat.divInt 1 1000000000000000).num = 1 := by
  have h : euclid (Rat.divInt 1 1000000000000000) = [0, 1000000000000000] := by
    simp +decide [euclid, euclidAux]
  refine ⟨?_, ?_, by decide, by decide⟩
  · rw [h]; decide
  · unfold intRatioCF; rw [h]; decide

/-- C1 witness: instantiation at `r = 7/3`. -/
theorem claim1_witness :
    noStop (euclid (Rat.divInt 7 3)) = true ∧
    asRational (euclid (Rat.divInt 7 3)) = .ok (Rat.divInt 7 3) := by
  have h : euclid (Rat.divInt 7 3) = [2, 3] := by
    simp +decide [euclid, euclidAux]
  have hns : noStop (euclid (Rat.divInt 7 3)) = true := by
    unfold noStop
    rw [h]
    decide
  exact ⟨hns, (claim1_roundtrip_exact (Rat.divInt 7 3) hns).1⟩

/-- C2 (amended): for every integer matrix `(a,b,c,d)` and rational `r` with
`c·r + d ≠ 0`, the homographic output stream is nonempty and its exact value
(final convergent) is `(a·r+b)/(c·r+d)`; `as_rational` returns exactly this
value whenever its epsilon walk does not stop early.  When `c = d = 0` the
output stream is empty.  (When `c·r + d = 0` with `(c,d) ≠ (0,0)` the stream
need not be empty: the loop only skips the final Euclid expansion.) -/
theorem claim2_homographic :
    (∀ (a b c d : ℤ) (r : ℚ), (c : ℚ) * r + (d : ℚ) ≠ 0 →
      homographic (euclid r) a b c d ≠ [] ∧
      convLast (homographic (euclid r) a b c d) =
        ((a : ℚ) * r + (b : ℚ)) / ((c : ℚ) * r + (d : ℚ)) ∧
      (noStop (homographic (euclid r) a b c d) = true →
        asRational (homographic (euclid r) a b c d) =
          .ok (((a : ℚ) * r + (b : ℚ)) / ((c : ℚ) * r + (d : ℚ))))) ∧
    (∀ (x : List ℤ) (a b : ℤ), homographic x a b 0 0 = []) := by
  constructor
  · intro a b c d r hden
    obtain ⟨hne, hval⟩ := homographic_value r a b c d hden
    refine ⟨hne, hval, fun hns => ?_⟩
    rw [asRational_noStop _ hns hne, hval]
  · exact homographic_infty

/-- C2 counterexample: (i) at `r = -1/2` with matrix `(10, 5, 2, 1)` we have
`c·r + d = 0`, yet the coefficient stream is `[5]`, not empty — the engine
egests a digit before discovering the pole; (ii) with matrix
`(1, 0, 0, 10^15)` at `r = 1` the exact result `10^-15` is nonzero but
`as_rational` returns `0` (epsilon early stop), so the claimed `as_rational`
equality also fails as stated. -/
theorem claim2_counterexample :
    (2 : ℚ) * (Rat.divInt (-1) 2) + (1 : ℚ) = 0 ∧
    homographic (euclid (Rat.divInt (-1) 2)) 10 5 2 1 = [5] ∧
    asRational (homographic (euclid 1) 1 0 0 1000000000000000) = .ok 0 ∧
    ((1 : ℚ) * 1 + (0 : ℚ)) / ((0 : ℚ) * 1 + (1000000000000000 : ℚ)) ≠ 0 := by
  refine ⟨by norm_num [Rat.divInt_eq_div], ?_, ?_, by norm_num⟩
  · simp +decide [homographic, homogRun, euclid, euclidAux]
  · have h : homographic (euclid 1) 1 0 0 1000000000000000 = [0, 1000000000000000] := by
      simp +decide [homographic, homogRun, euclid, euclidAux]
    rw [h]
    decide

/-- C2 witness: the identity transform at `r = 7/3`. -/
theorem claim2_witness :
    ((0 : ℚ) * (Rat.divInt 7 3) + (1 : ℚ) ≠ 0) ∧
    homographic (euclid (Rat.divInt 7 3)) 1 0 0 1 ≠ [] ∧
    convLast (homographic (euclid (Rat.divInt 7 3)) 1 0 0 1) =
      ((1 : ℚ) * (Rat.divInt 7 3) + (0 : ℚ)) / ((0 : ℚ) * (Rat.divInt 7 3) + (1 : ℚ)) := by
  have hden : (0 : ℚ) * (Rat.divInt 7 3) + (1 : ℚ) ≠ 0 := by norm_num
  obtain ⟨h1, h2, -⟩ := claim2_homographic.1 1 0 0 1 (Rat.divInt 7 3) hden
  exact ⟨hden, h1, h2⟩

/-- C3 (amended): for bilinear coefficients with `e,f,g,h ≥ 0`, not all of
`e,f,g,h` zero, and a nonzero result denominator, the bihomographic transform
succeeds, its output stream is nonempty with exact value (final convergent)
`(a·x·y+b·x+c·y+d)/(e·x·y+f·x+g·y+h)`, and `as_rational` returns exactly this
value whenever its epsilon walk does not stop early.  The concrete product
scenario `1/2 · 1/3 = 1/6` holds through `as_rational` exactly. -/
theorem claim3_bihomographic :
    (∀ (a b c d e f g h : ℤ) (x y : ℚ),
      0 ≤ e → 0 ≤ f → 0 ≤ g → 0 ≤ h → ¬(e = 0 ∧ f = 0 ∧ g = 0 ∧ h = 0) →
      (e : ℚ) * x * y + (f : ℚ) * x + (g : ℚ) * y + (h : ℚ) ≠ 0 →
      bihomographic (euclid x) (euclid y) a b c d e f g h =
        .ok (bihomRun (euclid x) (euclid y) false false a b c d e f g h) ∧
      bihomRun (euclid x) (euclid y) false false a b c d e f g h ≠ [] ∧
      convLast (bihomRun (euclid x) (euclid y) false false a b c d e f g h) =
        ((a : ℚ) * x * y + (b : ℚ) * x + (c : ℚ) * y + (d : ℚ)) /
          ((e : ℚ) * x * y + (f : ℚ) * x + (g : ℚ) * y + (h : ℚ)) ∧
      (noStop (bihomRun (euclid x) (euclid y) false false a b c d e f g h) = true →
        asRational (bihomRun (euclid x) (euclid y) false false a b c d e f g h) =
          .ok (((a : ℚ) * x * y + (b : ℚ) * x + (c : ℚ) * y + (d : ℚ)) /
            ((e : ℚ) * x * y + (f : ℚ) * x + (g : ℚ) * y + (h : ℚ))))) ∧
    (bihomographic (euclid (Rat.divInt 1 2)) (euclid (Rat.divInt 1 3)) 1 0 0 0 0 0 0 1 =
      .ok [0, 6] ∧
     asRational [0, 6] = .ok (Rat.divInt 1 6)) := by
  constructor
  · intro a b c d e f g h x y he hf hgc hh hnz hden
    obtain ⟨hok, hne, hval⟩ := bihomographic_value x y a b c d e f g h he hf hgc hh hnz hden
    refine ⟨hok, hne, hval, fun hns => ?_⟩
    rw [asRational_noStop _ hns hne, hval]
  · constructor
    · simp +decide [bihomographic, bihomRun, euclid, euclidAux]
    · decide

/-- C3 counterexample: the product `1 · 10^-15` computed bihomographically
has exact value `10^-15 ≠ 0`, but `as_rational` on the result stream returns
`0` (epsilon early stop), so the claimed `as_rational` equality fails as
stated for some rationals `x, y`. -/
theorem claim3_counterexample :
    bihomographic (euclid 1) (euclid (Rat.divInt 1 1000000000000000)) 1 0 0 0 0 0 0 1 =
      .ok [0, 1000000000000000] ∧
    asRational [0, 1000000000000000] = .ok 0 ∧
    ((1 : ℚ) * 1 * (Rat.divInt 1 1000000000000000) + (0 : ℚ) * 1 +
        (0 : ℚ) * (Rat.divInt 1 1000000000000000) + (0 : ℚ)) /
      ((0 : ℚ) * 1 * (Rat.divInt 1 1000000000000000) + (0 : ℚ) * 1 +
        (0 : ℚ) * (Rat.divInt 1 1000000000000000) + (1 : ℚ)) ≠ 0 := by
  refine ⟨?_, by decide, ?_⟩
  · simp +decide [bihomographic, bihomRun, euclid, euclidAux]
  · rw [Rat.divInt_eq_div]
    norm_num

/-- C3 witness: the product transform at `x = y = 1`. -/
theorem claim3_witness :
    ((1 : ℚ) * 1 * 1 + (0 : ℚ) * 1 + (0 : ℚ) * 1 + (1 : ℚ) ≠ 0) ∧
    bihomographic (euclid 1) (euclid 1) 1 0 0 0 0 0 0 1 =
      .ok (bihomRun (euclid 1) (euclid 1) false false 1 0 0 0 0 0 0 1) ∧
    bihomRun (euclid 1) (euclid 1) false false 1 0 0 0 0 0 0 1 ≠ [] := by
  have hden : ((0 : ℤ) : ℚ) * 1 * 1 + ((0 : ℤ) : ℚ) * 1 + ((0 : ℤ) : ℚ) * 1 +
      ((1 : ℤ) : ℚ) ≠ 0 := by push_cast; norm_num
  obtain ⟨h1, h2, -, -⟩ := claim3_bihomographic.1 1 0 0 0 0 0 0 1 1 1
    (by norm_num) (by norm_num) (by norm_num) (by norm_num) (by simp) hden
  exact ⟨by norm_num, h1, h2⟩

/-- C4 (amended): the homographic engine egests exactly when `c ≠ 0`,
`d ≠ 0`, `c·d > 0` (the two denominators share a sign) and
`trunc(a/c) = trunc(b/d) ≠ 0` (truncation toward zero, and a zero quotient
blocks emission); it then yields `q = trunc(a/c)` with the state update
`(a,b,c,d) ← (c, d, a−q·c, b−q·d)`, and in every other state with input
remaining it ingests. -/
theorem claim4_egest_rule :
    (∀ (x : List ℤ) (a b c d : ℤ),
      (c ≠ 0 ∧ d ≠ 0 ∧ 0 < c * d ∧ a.tdiv c = b.tdiv d ∧ b.tdiv d ≠ 0) →
      homogRun x a b c d =
        a.tdiv c :: homogRun x c d (a - a.tdiv c * c) (b - a.tdiv c * d)) ∧
    (∀ (p : ℤ) (xs : List ℤ) (a b c d : ℤ),
      ¬(c ≠ 0 ∧ d ≠ 0 ∧ 0 < c * d ∧ a.tdiv c = b.tdiv d ∧ b.tdiv d ≠ 0) →
      homogRun (p :: xs) a b c d = homogRun xs (p * a + b) a (p * c + d) c) :=
  ⟨homogRun_egest, homogRun_ingest⟩

/-- C4 counterexample: on the stream `[3]` with matrix `(-2, -1, 1, 0)` the
strict floor-equality machine of the claim (modelled from the spec, with no
sign guard, no `q ≠ 0` guard, and floor division) outputs `[-3, 1, 2]`, while
the code outputs `[-2, -3]`; at the deciding state `(-7, -2, 3, 1)` the
floors `-3, -2` disagree but the truncations agree at `-2`, so the code
egests where the claimed rule would not (and with a different digit). -/
theorem claim4_counterexample :
    homogSpecGo 10 [3] (-2) (-1) 1 0 = some [-3, 1, 2] ∧
    homogRun [3] (-2) (-1) 1 0 = [-2, -3] ∧
    ((-7 : ℤ).fdiv 3 = -3 ∧ (-2 : ℤ).fdiv 1 = -2 ∧
      (-7 : ℤ).tdiv 3 = -2 ∧ (-2 : ℤ).tdiv 1 = -2) ∧
    ([-2, -3] : List ℤ) ≠ [-3, 1, 2] := by
  refine ⟨?_, ?_, by decide, by decide⟩
  · simp +decide [homogSpecGo, euclid, euclidAux]
  · simp +decide [homogRun, euclid, euclidAux]

/-- C4 witness: the egest rule applied at the state `(-7, -2, 3, 1)`. -/
theorem claim4_witness :
    ((3 : ℤ) ≠ 0 ∧ (1 : ℤ) ≠ 0 ∧ (0 : ℤ) < 3 * 1 ∧
      (-7 : ℤ).tdiv 3 = (-2 : ℤ).tdiv 1 ∧ (-2 : ℤ).tdiv 1 ≠ 0) ∧
    homogRun [] (-7) (-2) 3 1 =
      (-7 : ℤ).tdiv 3 ::
        homogRun [] 3 1 ((-7) - (-7 : ℤ).tdiv 3 * 3) ((-2) - (-7 : ℤ).tdiv 3 * 1) := by
  have hg : (3 : ℤ) ≠ 0 ∧ (1 : ℤ) ≠ 0 ∧ (0 : ℤ) < 3 * 1 ∧
      (-7 : ℤ).tdiv 3 = (-2 : ℤ).tdiv 1 ∧ (-2 : ℤ).tdiv 1 ≠ 0 := by decide
  exact ⟨hg, claim4_egest_rule.1 [] (-7) (-2) 3 1 hg⟩

/-- C5: the code's `__gt__` is literally `not (self < other)`, so at the
equal pair `a = b = 1/2` the comparison `ContinuedFraction(1/2) > 1/2`
returns `True` while the exact rational comparison `1/2 > 1/2` is false —
contradicting both this claim and the library's own property test
`test_comparison` (`assert (ContFrac(a) > b) == (a > b)`).  The `<` operator
itself returns `False` there, as required. -/
theorem claim5_gt_bug :
    gtQ (euclid (Rat.divInt 1 2)) (Rat.divInt 1 2) = .ok true ∧
    ¬((Rat.divInt 1 2 : ℚ) > Rat.divInt 1 2) ∧
    ltQ (euclid (Rat.divInt 1 2)) (Rat.divInt 1 2) = .ok false := by
  have h : euclid (Rat.divInt 1 2) = [0, 2] := by
    simp +decide [euclid, euclidAux]
  refine ⟨?_, by decide, ?_⟩
  · unfold gtQ; rw [h]; decide
  · unfold ltQ; rw [h]; decide

/-- C6 (amended): the unbounded-value signal (`OverflowError`) is raised by
`as_rational()` exactly on an empty convergent stream, by `split()` exactly
on an empty coefficient stream, by `int()` on an empty coefficient stream,
by division by a rational exactly when that rational is zero, and by
division by a continued fraction exactly when the divisor's materialized
rational (`as_rational`) is zero or is itself unbounded; no partial output
is produced in the raising cases. -/
theorem claim6_overflow_exact :
    (∀ L : List ℤ, asRational L = .error .overflow ↔ L = []) ∧
    (∀ L : List ℤ, splitCF L = .error .overflow ↔ L = []) ∧
    (∀ (L : List ℤ) (q : ℚ), divCFq L q = .error .overflow ↔ q = 0) ∧
    (∀ L M : List ℤ, divCFCF L M = .error .overflow ↔
      (asRational M = .error .overflow ∨ asRational M = .ok 0)) ∧
    (∀ (q : ℚ) (M : List ℤ), rdivCF q M = .error .overflow ↔
      (asRational M = .error .overflow ∨ asRational M = .ok 0)) ∧
    intCF [] = .error .overflow := by
  refine ⟨asRational_overflow_iff, ?_, ?_, ?_, ?_, rfl⟩
  · intro L
    cases L with
    | nil => simp [splitCF]
    | cons a r => simp [splitCF]
  · intro L q
    unfold divCFq
    split_ifs with h
    · rw [Rat.num_eq_zero] at h
      simp [h]
    · rw [Rat.num_eq_zero] at h
      simp [h]
  · intro L M
    cases hM : asRational M with
    | error e =>
      simp only [divCFCF, hM]
      cases e <;> simp
    | ok rm =>
      simp only [divCFCF, hM]
      by_cases h0 : rm = 0
      · simp [h0]
      · rw [if_neg h0]
        by_cases hneg : ¬(rm < 0)
        · rw [if_pos hneg, bihomographic_div_ok]
          simp [h0]
        · rw [if_neg hneg]
          have hMne : M ≠ [] := by
            intro hM0
            subst hM0
            simp [asRational, ratWalk] at hM
          rcases M with - | ⟨m, Ms⟩
          · exact absurd rfl hMne
          · rw [negCF_cons]
            simp [bihomographic_divneg_ok, h0]
  · intro q M
    cases hM : asRational M with
    | error e =>
      simp only [rdivCF, hM]
      cases e <;> simp
    | ok rm =>
      simp only [rdivCF, hM]
      by_cases h0 : rm = 0
      · simp [h0]
      · simp [h0]

/-- C6 counterexample: `int()` on the empty stream raises `OverflowError`,
an operation outside the claim's exhaustive list; and division by the
continued fraction of `10^-15` — a nonzero divisor — also raises
`OverflowError`, because the zero-divisor test goes through the epsilon-
stopping `as_rational`, which materializes that divisor as `0`. -/
theorem claim6_counterexample :
    intCF [] = .error .overflow ∧
    divCFCF [0] (euclid (Rat.divInt 1 1000000000000000)) = .error .overflow ∧
    (Rat.divInt 1 1000000000000000 : ℚ) ≠ 0 := by
  have h : euclid (Rat.divInt 1 1000000000000000) = [0, 1000000000000000] := by
    simp +decide [euclid, euclidAux]
  refine ⟨rfl, ?_, by decide⟩
  rw [h]
  decide

/-- C7 (amended): requesting a bihomographic transform never fails — the
generator body is deferred, so the negative-coefficient check runs on the
first traversal of the result, before the ingest/egest loop and before any
coefficient is produced, not at the moment the transform is requested. -/
theorem claim7_check_at_traversal :
    (∀ (x y : List ℤ) (a b c d e f g h : ℤ),
      bihomographicRequest x y a b c d e f g h = .ok (x, y, a, b, c, d, e, f, g, h)) ∧
    (∀ (x y : List ℤ) (a b c d e f g h : ℤ),
      (e < 0 ∨ f < 0 ∨ g < 0 ∨ h < 0) →
      bihomTraverse (x, y, a, b, c, d, e, f, g, h) = .error .valueErr) := by
  constructor
  · intro x y a b c d e f g h
    rfl
  · intro x y a b c d e f g h hneg
    unfold bihomTraverse bihomographic
    rw [if_neg (by
        rintro ⟨h1, h2, h3, h4⟩
        simp at h1 h2 h3 h4
        rcases hneg with h | h | h | h <;> omega),
      if_pos hneg]

/-- C7 counterexample: requesting the transform with `e = -1` succeeds (the
handle is constructed with no error), and the invalid-coefficients error
surfaces only when the result is first traversed — contradicting the claim
that the failure happens at request time before any pull. -/
theorem claim7_counterexample :
    bihomographicRequest [1] [1] 1 0 0 0 (-1) 0 0 1 =
      .ok ([1], [1], 1, 0, 0, 0, -1, 0, 0, 1) ∧
    bihomTraverse ([1], [1], 1, 0, 0, 0, -1, 0, 0, 1) = .error .valueErr := by
  exact ⟨rfl, by decide⟩

/-- C7 witness: instantiation at `f = -1`. -/
theorem claim7_witness :
    ((0 : ℤ) < 0 ∨ (-1 : ℤ) < 0 ∨ (0 : ℤ) < 0 ∨ (1 : ℤ) < 0) ∧
    bihomTraverse ([2], [3], 0, 0, 0, 1, 0, -1, 0, 1) = .error .valueErr := by
  have hneg : (0 : ℤ) < 0 ∨ (-1 : ℤ) < 0 ∨ (0 : ℤ) < 0 ∨ (1 : ℤ) < 0 := by decide
  exact ⟨hneg, claim7_check_at_traversal.2 [2] [3] 0 0 0 1 0 (-1) 0 1 hneg⟩

/-- C8 (amended): every stream produced by the integer/rational constructors
is in canonical form — the first element may be any integer and every
subsequent element is ≥ 1.  Streams produced by composing homographic or
bihomographic transforms (negation in particular) need not be canonical. -/
theorem claim8_constructor_canonical (r : ℚ) : ∀ a ∈ (euclid r).tail, 1 ≤ a :=
  euclid_tail_ge_one r

/-- C8 counterexample: negation of `ContinuedFraction(7/3)` — a homographic
composition — produces the coefficient stream `[-2, -3]`, whose second
element is `-3 < 1`: transform-produced streams are not canonical. -/
theorem claim8_counterexample :
    negCF (euclid (Rat.divInt 7 3)) = .ok [-2, -3] ∧
    ([(-2 : ℤ), -3]).tail = [(-3 : ℤ)] ∧ ¬(1 ≤ (-3 : ℤ)) := by
  refine ⟨?_, by decide, by decide⟩
  simp +decide [negCF, splitCF, Except.map, homographic, homogRun, euclid, euclidAux]

/-- C8 witness: the element `3` of the tail of the stream of `7/3`. -/
theorem claim8_witness : (3 : ℤ) ∈ (euclid (Rat.divInt 7 3)).tail ∧ 1 ≤ (3 : ℤ) := by
  have h : euclid (Rat.divInt 7 3) = [2, 3] := by
    simp +decide [euclid, euclidAux]
  have hmem : (3 : ℤ) ∈ (euclid (Rat.divInt 7 3)).tail := by
    rw [h]
    decide
  exact ⟨hmem, claim8_constructor_canonical (Rat.divInt 7 3) 3 hmem⟩

/-- C9 (amended): negation splits off the first coefficient `a0` and applies
the homographic transform `(-a0, -1, 1, 0)` to the remainder; the resulting
stream is nonempty with exact value `-a`, and `as_rational` returns exactly
`-a` whenever its epsilon walk does not stop early (which can fail for tiny
rationals).  Absolute value uses the same transform when `a0 < 0` and
returns the value itself otherwise, with exact value `|a|` likewise. -/
theorem claim9_neg_abs (a : ℚ) :
    negCF (euclid a) =
      .ok (homographic (euclid a).tail (-(a.num.fdiv (a.den : ℤ))) (-1) 1 0) ∧
    homographic (euclid a).tail (-(a.num.fdiv (a.den : ℤ))) (-1) 1 0 ≠ [] ∧
    convLast (homographic (euclid a).tail (-(a.num.fdiv (a.den : ℤ))) (-1) 1 0) = -a ∧
    (noStop (homographic (euclid a).tail (-(a.num.fdiv (a.den : ℤ))) (-1) 1 0) = true →
      asRational (homographic (euclid a).tail (-(a.num.fdiv (a.den : ℤ))) (-1) 1 0) =
        .ok (-a)) ∧
    (a < 0 →
      absCF (euclid a) =
        .ok (homographic (euclid a).tail (-(a.num.fdiv (a.den : ℤ))) (-1) 1 0) ∧
      convLast (homographic (euclid a).tail (-(a.num.fdiv (a.den : ℤ))) (-1) 1 0) = |a|) ∧
    (0 ≤ a →
      absCF (euclid a) = .ok (euclid a) ∧ convLast (euclid a) = |a| ∧
      (noStop (euclid a) = true → asRational (euclid a) = .ok |a|)) := by
  obtain ⟨hne, hval⟩ := neg_tail_value a
  have hnegCF : negCF (euclid a) =
      .ok (homographic (euclid a).tail (-(a.num.fdiv (a.den : ℤ))) (-1) 1 0) := by
    conv_lhs => rw [euclid_split a]
    rw [negCF_cons]
  refine ⟨hnegCF, hne, hval, ?_, ?_, ?_⟩
  · intro hns
    rw [asRational_noStop _ hns hne, hval]
  · intro ha
    have hnum : a.num < 0 := Rat.num_neg.mpr ha
    have hhead : a.num.fdiv (a.den : ℤ) < 0 := Int.fdiv_neg' hnum (rat_den_pos_int a)
    exact ⟨absCF_neg_eq (euclid a) _ _ (euclid_split a) hhead,
      by rw [hval, abs_of_neg ha]⟩
  · intro ha
    have hnum : 0 ≤ a.num := Rat.num_nonneg.mpr ha
    have hhead : 0 ≤ a.num.fdiv (a.den : ℤ) :=
      Int.fdiv_nonneg hnum (le_of_lt (rat_den_pos_int a))
    refine ⟨absCF_nonneg_eq (euclid a) _ _ (euclid_split a) hhead, ?_, ?_⟩
    · rw [convLast_euclid, abs_of_nonneg ha]
    · intro hns
      rw [asRational_noStop _ hns (euclid_ne_nil a), convLast_euclid, abs_of_nonneg ha]

/-- C9 counterexample: for `a = 1/10^15` the negated stream is
`[-1, 1, 10^15 - 1]`, whose materialization stops early and returns `0`, so
the equality `-ContinuedFraction(a) == -a` (which compares through
`as_rational`) is false: the code's `__eq__` returns `False` against
`-1/10^15`. -/
theorem claim9_counterexample :
    negCF (euclid (Rat.divInt 1 1000000000000000)) = .ok [-1, 1, 999999999999999] ∧
    asRational [-1, 1, 999999999999999] = .ok 0 ∧
    eqQ [-1, 1, 999999999999999] (Rat.divInt (-1) 1000000000000000) = .ok false ∧
    Rat.divInt (-1) 1000000000000000 = -(Rat.divInt 1 1000000000000000) := by
  refine ⟨?_, by decide, by decide, by norm_num [Rat.divInt_eq_div]⟩
  simp +decide [negCF, splitCF, Except.map, homographic, homogRun, euclid, euclidAux]

/-- C9 witness: negation of `7/3` materializes to exactly `-7/3`. -/
theorem claim9_witness :
    noStop (homographic (euclid (Rat.divInt 7 3)).tail
      (-((Rat.divInt 7 3).num.fdiv ((Rat.divInt 7 3).den : ℤ))) (-1) 1 0) = true ∧
    asRational (homographic (euclid (Rat.divInt 7 3)).tail
      (-((Rat.divInt 7 3).num.fdiv ((Rat.divInt 7 3).den : ℤ))) (-1) 1 0) =
      .ok (-(Rat.divInt 7 3)) := by
  have h1 : euclid (Rat.divInt 7 3) = [2, 3] := by
    simp +decide [euclid, euclidAux]
  have h2 : homographic (euclid (Rat.divInt 7 3)).tail
      (-((Rat.divInt 7 3).num.fdiv ((Rat.divInt 7 3).den : ℤ))) (-1) 1 0 = [-2, -3] := by
    rw [h1]
    simp +decide [homographic, homogRun, euclid, euclidAux]
  have hns : noStop (homographic (euclid (Rat.divInt 7 3)).tail
      (-((Rat.divInt 7 3).num.fdiv ((Rat.divInt 7 3).den : ℤ))) (-1) 1 0) = true := by
    rw [h2]
    decide
  exact ⟨hns, (claim9_neg_abs (Rat.divInt 7 3)).2.2.2.1 hns⟩

/-- C10 (confirmed): integer conversion truncates toward zero — for every
rational `r`, `int(ContinuedFraction(r))` equals `trunc(r)`: it is the first
coefficient `a0 = floor(r)` when `a0 ≥ 0`, `a0 + 1` when `a0 < 0` and the
stream continues, `a0` when `a0 < 0` is the only coefficient, and the empty
stream raises `OverflowError`. -/
theorem claim10_int_trunc :
    (∀ r : ℚ, intCF (euclid r) = .ok (ratTrunc r)) ∧
    (∀ r : ℚ, 0 ≤ r.num.fdiv (r.den : ℤ) →
      intCF (euclid r) = .ok (r.num.fdiv (r.den : ℤ))) ∧
    (∀ r : ℚ, r.num.fdiv (r.den : ℤ) < 0 → r.den ≠ 1 →
      intCF (euclid r) = .ok (r.num.fdiv (r.den : ℤ) + 1)) ∧
    (∀ r : ℚ, r.num.fdiv (r.den : ℤ) < 0 → r.den = 1 →
      intCF (euclid r) = .ok (r.num.fdiv (r.den : ℤ))) ∧
    intCF [] = .error .overflow := by
  refine ⟨intCF_euclid, ?_, ?_, ?_, rfl⟩
  · intro r h
    rw [intCF_euclid r, ratTrunc_nonneg_case r h]
  · intro r h hden
    have hneg : r.num < 0 := by
      by_contra hc
      push_neg at hc
      have := Int.fdiv_nonneg hc (le_of_lt (rat_den_pos_int r))
      omega
    rw [intCF_euclid r, ratTrunc_neg_noninteger r hneg hden]
  · intro r h hden
    rw [intCF_euclid r, ratTrunc_int r hden]
    have hfd : r.num.fdiv (r.den : ℤ) = r.num := by
      rw [hden]
      exact_mod_cast Int.fdiv_one r.num
    rw [hfd]

/-- C10 witness: `int` of `-7/3` is `-2 = trunc(-7/3)`, the `a0 + 1` case. -/
theorem claim10_witness :
    ((Rat.divInt (-7) 3).num.fdiv ((Rat.divInt (-7) 3).den : ℤ) < 0) ∧
    ((Rat.divInt (-7) 3).den ≠ 1) ∧
    intCF (euclid (Rat.divInt (-7) 3)) =
      .ok ((Rat.divInt (-7) 3).num.fdiv ((Rat.divInt (-7) 3).den : ℤ) + 1) := by
  have h1 : (Rat.divInt (-7) 3).num.fdiv ((Rat.divInt (-7) 3).den : ℤ) < 0 := by decide
  have h2 : (Rat.divInt (-7) 3).den ≠ 1 := by decide
  exact ⟨h1, h2, claim10_int_trunc.2.2.1 (Rat.divInt (-7) 3) h1 h2⟩

end Contfrac
